import Mathlib

/-!
Shallow embedding of the NebulaX trading-algorithm core
(`src/trading_algorithm`): the backtester trade ledger
(`backtester.py`), the Kelly risk manager (`risk_manager.py`),
the technical-analysis ensemble (`technical_analyst.py`), the
decision orchestrator's risk clamp (`mixgo.py`) and the LLM retry
fallback (`signals/utils/llm.py`).  Machine floats are modelled as
exact rationals; Python `int()` truncation and `round()` banker's
rounding get explicit helpers.
-/

namespace NebulaX

/-- Python `int()` applied to a float/fraction: truncation toward zero. -/
def pyInt (q : ℚ) : ℤ := if 0 ≤ q then ⌊q⌋ else ⌈q⌉

/-- Python 3 `round()` to an integer: round half to even. -/
def pyRound (q : ℚ) : ℤ :=
  if q - ⌊q⌋ = 1/2 then (if 2 ∣ ⌊q⌋ then ⌊q⌋ else ⌊q⌋ + 1) else round q

/-! ## Backtester ledger (`backtester.py`)

`Backtester.__init__` builds the portfolio dict (lines 57-77); tickers are
modelled by their index in the `positions` list. -/

/-- Per-ticker position record, from the dict built in `Backtester.__init__`:
`{"long": 0, "short": 0, "long_cost_basis": 0.0, "short_cost_basis": 0.0,
"short_margin_used": 0.0}`. -/
structure Position where
  long : ℤ
  short : ℤ
  long_cost_basis : ℚ
  short_cost_basis : ℚ
  short_margin_used : ℚ
deriving Repr, DecidableEq

/-- Per-ticker realized gains record `{"long": 0.0, "short": 0.0}`. -/
structure RealizedGains where
  long : ℚ
  short : ℚ
deriving Repr, DecidableEq

/-- The backtester portfolio dict: cash, aggregate margin, margin ratio, and
the per-ticker position and realized-gain records (tickers are indices). -/
structure Portfolio where
  cash : ℚ
  margin_used : ℚ
  margin_requirement : ℚ
  positions : List Position
  realized_gains : List RealizedGains
deriving Repr, DecidableEq

/-- The zeroed position every ticker starts with. -/
def Position.init : Position :=
  { long := 0, short := 0, long_cost_basis := 0, short_cost_basis := 0,
    short_margin_used := 0 }

/-- The portfolio built by `Backtester.__init__` for `n` tickers. -/
def initPortfolio (n : ℕ) (initial_capital : ℚ)
    (initial_margin_requirement : ℚ) : Portfolio :=
  { cash := initial_capital,
    margin_used := 0,
    margin_requirement := initial_margin_requirement,
    positions := List.replicate n Position.init,
    realized_gains := List.replicate n { long := 0, short := 0 } }

/-- Update the realized-gains entry of ticker `i` (a dict update in Python). -/
def updateGains (l : List RealizedGains) (i : ℕ)
    (f : RealizedGains → RealizedGains) : List RealizedGains :=
  match l[i]? with
  | some r => l.set i (f r)
  | none => l

/-- The `buy` branch of `Backtester._execute_trade` (backtester.py
lines 340-374): pay quantity times price if affordable, otherwise clip to
`int(cash / price)`; the long cost basis becomes the weighted average of
the old and new cost. -/
def executeBuy (p : Portfolio) (i : ℕ) (position : Position)
    (quantity : ℤ) (current_price : ℚ) : Portfolio × ℤ :=
  let cost : ℚ := quantity * current_price
  if cost ≤ p.cash then
    let total_shares : ℤ := position.long + quantity
    let basis : ℚ :=
      if 0 < total_shares then
        (position.long_cost_basis * position.long + cost) / total_shares
      else position.long_cost_basis
    let pos2 : Position :=
      { position with long := position.long + quantity,
                      long_cost_basis := basis }
    ({ p with cash := p.cash - cost,
              positions := p.positions.set i pos2 }, quantity)
  else
    let max_quantity : ℤ := pyInt (p.cash / current_price)
    if 0 < max_quantity then
      let cost : ℚ := max_quantity * current_price
      let total_shares : ℤ := position.long + max_quantity
      let basis : ℚ :=
        if 0 < total_shares then
          (position.long_cost_basis * position.long + cost) / total_shares
        else position.long_cost_basis
      let pos2 : Position :=
        { position with long := position.long + max_quantity,
                        long_cost_basis := basis }
      ({ p with cash := p.cash - cost,
                positions := p.positions.set i pos2 }, max_quantity)
    else (p, 0)

/-- The `sell` branch of `Backtester._execute_trade` (backtester.py
lines 376-391): clip to the held long quantity, realize the gain against
the average cost basis, reset the basis when the position closes. -/
def executeSell (p : Portfolio) (i : ℕ) (position : Position)
    (quantity : ℤ) (current_price : ℚ) : Portfolio × ℤ :=
  let q : ℤ := min quantity position.long
  if 0 < q then
    let avg_cost : ℚ :=
      if 0 < position.long then position.long_cost_basis else 0
    let realized : ℚ := (current_price - avg_cost) * q
    let newLong : ℤ := position.long - q
    let pos2 : Position :=
      { position with long := newLong,
                      long_cost_basis :=
                        if newLong = 0 then 0
                        else position.long_cost_basis }
    ({ p with
        cash := p.cash + q * current_price,
        positions := p.positions.set i pos2,
        realized_gains := updateGains p.realized_gains i
          (fun r => { r with long := r.long + realized }) }, q)
  else (p, 0)

/-- The `short` branch of `Backtester._execute_trade` (backtester.py
lines 393-452): receive proceeds, post `proceeds * margin_requirement` as
margin if affordable, otherwise clip to
`int(cash / (price * margin_ratio))`; the short cost basis becomes the
weighted average. -/
def executeShort (p : Portfolio) (i : ℕ) (position : Position)
    (quantity : ℤ) (current_price : ℚ) : Portfolio × ℤ :=
  let proceeds : ℚ := current_price * quantity
  let margin_required : ℚ := proceeds * p.margin_requirement
  if margin_required ≤ p.cash then
    let total_shares : ℤ := position.short + quantity
    let basis : ℚ :=
      if 0 < total_shares then
        (position.short_cost_basis * position.short
          + current_price * quantity) / total_shares
      else position.short_cost_basis
    let pos2 : Position :=
      { position with short := position.short + quantity,
                      short_cost_basis := basis,
                      short_margin_used :=
                        position.short_margin_used + margin_required }
    ({ p with cash := p.cash + proceeds - margin_required,
              margin_used := p.margin_used + margin_required,
              positions := p.positions.set i pos2 }, quantity)
  else
    let max_quantity : ℤ :=
      if 0 < p.margin_requirement then
        pyInt (p.cash / (current_price * p.margin_requirement))
      else 0
    if 0 < max_quantity then
      let proceeds : ℚ := current_price * max_quantity
      let margin_required : ℚ := proceeds * p.margin_requirement
      let total_shares : ℤ := position.short + max_quantity
      let basis : ℚ :=
        if 0 < total_shares then
          (position.short_cost_basis * position.short
            + current_price * max_quantity) / total_shares
        else position.short_cost_basis
      let pos2 : Position :=
        { position with short := position.short + max_quantity,
                        short_cost_basis := basis,
                        short_margin_used :=
                          position.short_margin_used + margin_required }
      ({ p with cash := p.cash + proceeds - margin_required,
                margin_used := p.margin_used + margin_required,
                positions := p.positions.set i pos2 }, max_quantity)
    else (p, 0)

/-- The `cover` branch of `Backtester._execute_trade` (backtester.py
lines 454-488): clip to the held short quantity, release a proportional
share of the posted margin, realize the gain, and reset the short fields
when the position closes. -/
def executeCover (p : Portfolio) (i : ℕ) (position : Position)
    (quantity : ℤ) (current_price : ℚ) : Portfolio × ℤ :=
  let q : ℤ := min quantity position.short
  if 0 < q then
    let cover_cost : ℚ := q * current_price
    let avg_short : ℚ :=
      if 0 < position.short then position.short_cost_basis else 0
    let realized : ℚ := (avg_short - current_price) * q
    let portion : ℚ :=
      if 0 < position.short then (q : ℚ) / (position.short : ℚ) else 1
    let margin_to_release : ℚ := portion * position.short_margin_used
    let newShort : ℤ := position.short - q
    let pos2 : Position :=
      { position with short := newShort,
                      short_margin_used :=
                        if newShort = 0 then 0
                        else position.short_margin_used - margin_to_release,
                      short_cost_basis :=
                        if newShort = 0 then 0
                        else position.short_cost_basis }
    ({ p with
        cash := p.cash + margin_to_release - cover_cost,
        margin_used := p.margin_used - margin_to_release,
        positions := p.positions.set i pos2,
        realized_gains := updateGains p.realized_gains i
          (fun r => { r with short := r.short + realized }) }, q)
  else (p, 0)

/-- Embedding of `Backtester._execute_trade` (backtester.py lines 332-490).
Returns the updated portfolio and the executed quantity.  A no-op on
nonpositive quantity or price; a ticker index outside the positions list
is also a no-op (the code only ever trades tickers the portfolio was
initialized with).  An unrecognized action string falls through to
`return 0`. -/
def _execute_trade (p : Portfolio) (i : ℕ) (action : String)
    (quantity : ℤ) (current_price : ℚ) : Portfolio × ℤ :=
  if quantity ≤ 0 ∨ current_price ≤ 0 then (p, 0) else
  match p.positions[i]? with
  | none => (p, 0)
  | some position =>
    if action = "buy" then executeBuy p i position quantity current_price
    else if action = "sell" then executeSell p i position quantity current_price
    else if action = "short" then executeShort p i position quantity current_price
    else if action = "cover" then executeCover p i position quantity current_price
    else (p, 0)


/-- A trade request: ticker index, action, quantity, price. -/
structure Trade where
  ticker : ℕ
  action : String
  quantity : ℤ
  price : ℚ
deriving Repr, DecidableEq

/-- Folding a sequence of trade executions over the portfolio, as the
backtest day loop does (backtester.py lines 204-211). -/
def runTrades (p : Portfolio) (trades : List Trade) : Portfolio :=
  trades.foldl
    (fun acc t => (_execute_trade acc t.ticker t.action t.quantity t.price).1) p

/-- Sum of `short_margin_used` across all ticker positions. -/
def marginSum (p : Portfolio) : ℚ :=
  (p.positions.map (fun pos => pos.short_margin_used)).sum

/-! ## Maximum drawdown (`backtester.py` lines 558-576)

The loop walks the portfolio-value series keeping a running peak; the
recorded date is the date of the peak preceding the deepest trough.
Dates are an abstract type `α` here. -/

/-- State of the drawdown loop: running peak value, its date, current max
drawdown (a nonpositive fraction) and the recorded peak date, if any. -/
structure DrawdownState (α : Type) where
  peak_value : ℚ
  peak_date : α
  max_drawdown : ℚ
  max_drawdown_date : Option α

/-- One iteration of the drawdown loop body. -/
def drawdownStep {α : Type} (st : DrawdownState α) (vd : ℚ × α) :
    DrawdownState α :=
  if st.peak_value < vd.1 then
    { st with peak_value := vd.1, peak_date := vd.2 }
  else
    let drawdown := (vd.1 - st.peak_value) / st.peak_value
    if drawdown < st.max_drawdown then
      { st with max_drawdown := drawdown,
                max_drawdown_date := some st.peak_date }
    else st

/-- Embedding of the max-drawdown computation of
`Backtester._calculate_performance_metrics`: returns the most negative
peak-to-trough fraction (0 for series that never decline) and the date of
the preceding peak.  The code multiplies the fraction by 100 when storing
it in `performance_metrics`. -/
def computeMaxDrawdown {α : Type} (values : List ℚ) (dates : List α) :
    ℚ × Option α :=
  match values, dates with
  | v0 :: vs, d0 :: ds =>
    let final := (vs.zip ds).foldl drawdownStep
      { peak_value := v0, peak_date := d0, max_drawdown := 0,
        max_drawdown_date := none }
    (final.max_drawdown, final.max_drawdown_date)
  | _, _ => (0, none)

/-! ## Risk manager (`trading_system/risk_manager.py`) -/

/-- Embedding of the positions part of
`RiskManager._calculate_portfolio_value` (lines 452-469): each side
contributes quantity times cost basis; a zero quantity or zero basis is
skipped by the `if long_qty and long_price` truthiness test. -/
def rmPositionsValue (positions : List Position) : ℚ :=
  (positions.map (fun pos =>
    (if pos.long ≠ 0 ∧ pos.long_cost_basis ≠ 0 then
       (pos.long : ℚ) * pos.long_cost_basis else 0) +
    (if pos.short ≠ 0 ∧ pos.short_cost_basis ≠ 0 then
       (pos.short : ℚ) * pos.short_cost_basis else 0))).sum

/-- Embedding of `RiskManager._calculate_portfolio_value` (lines 439-478):
cash plus position value, floored at the minimum portfolio value 10000
(`return max(total_value, 10000.0)`). -/
def rm_calculate_portfolio_value (p : Portfolio) : ℚ :=
  max (p.cash + rmPositionsValue p.positions) 10000

/-- The `total_value` field of `RiskManager.get_portfolio_summary`
(line 510): it is `self._calculate_portfolio_value(portfolio)`. -/
def get_portfolio_summary_total_value (p : Portfolio) : ℚ :=
  rm_calculate_portfolio_value p

/-- The total-value formula as the specification words it
(spec section 4.2): total value = cash + sum of long quantity times long
cost basis + sum of short quantity times short cost basis.  Stated for
comparison with `rm_calculate_portfolio_value`, which is taken from the
source. -/
def specTotalValue (p : Portfolio) : ℚ :=
  p.cash
    + (p.positions.map (fun pos => (pos.long : ℚ) * pos.long_cost_basis)).sum
    + (p.positions.map (fun pos => (pos.short : ℚ) * pos.short_cost_basis)).sum

/-- Daily returns as computed by `pl.col("close").pct_change()` followed by
`drop_nulls()`: the fractional change between consecutive closes, the
leading null dropped. -/
def pctChange (closes : List ℚ) : List ℚ :=
  List.zipWith (fun prev cur => (cur - prev) / prev) closes closes.tail

/-- The value the Kelly computation produces on its main path before the
volatility adjustment: win statistics of the daily returns fed into the
Kelly formula `(p·b − (1−p))/b`, clamped to [0, 0.20].  Factored out of
`_calculate_kelly_fraction_polars` so the volatility-halving clause can be
stated. -/
def kellyUnhalved (closes : List ℚ) : ℚ :=
  let returns := pctChange closes
  let positive_returns := returns.filter (fun r => 0 < r)
  let negative_returns := returns.filter (fun r => r < 0)
  let win_probability : ℚ := (positive_returns.length : ℚ) / (returns.length : ℚ)
  let avg_win : ℚ := positive_returns.sum / (positive_returns.length : ℚ)
  let avg_loss : ℚ := |negative_returns.sum / (negative_returns.length : ℚ)|
  let win_loss_ratio := avg_win / avg_loss
  let kelly_fraction :=
    (win_probability * win_loss_ratio - (1 - win_probability)) / win_loss_ratio
  max 0 (min kelly_fraction (1/5))

/-- Embedding of `RiskManager._calculate_kelly_fraction_polars`
(risk_manager.py lines 139-196) over the close-price column.  Conservative
default 0.02 on short data or single-signed returns; main-path value
clamped to [0, 0.20] and halved when annualized volatility exceeds 0.5. -/
def _calculate_kelly_fraction_polars (closes : List ℚ) (volatility : ℚ) : ℚ :=
  if closes.length < 30 then 1/50 else
  let returns := pctChange closes
  if returns.length < 10 then 1/50 else
  let positive_returns := returns.filter (fun r => 0 < r)
  let negative_returns := returns.filter (fun r => r < 0)
  if positive_returns.length = 0 ∨ negative_returns.length = 0 then 1/50 else
  let avg_win : ℚ := positive_returns.sum / (positive_returns.length : ℚ)
  let avg_loss : ℚ := |negative_returns.sum / (negative_returns.length : ℚ)|
  if avg_loss = 0 ∨ avg_win = 0 then 1/50 else
  let kelly_fraction := kellyUnhalved closes
  if 1/2 < volatility then kelly_fraction * (1/2) else kelly_fraction

/-! ## Technical analyst (`trading_system/technical_analyst.py`) -/

/-- One sub-strategy result as consumed by the ensemble combination:
`{"signal": ..., "confidence": ...}` (the metrics entry plays no role in
the combination). -/
structure StrategySignal where
  signal : String
  confidence : ℚ
deriving Repr, DecidableEq

/-- The five sub-strategy results handed to
`_weighted_signal_combination` by `analyze` (technical_analyst.py
lines 63-71). -/
structure StrategySignals where
  trend : StrategySignal
  mean_reversion : StrategySignal
  momentum : StrategySignal
  volatility : StrategySignal
  stat_arb : StrategySignal
deriving Repr, DecidableEq

/-- The numeric value of a signal string:
`signal_values = {"bullish": 1, "neutral": 0, "bearish": -1}` with
`.get(signal, 0)` for anything else. -/
def signalValue (s : String) : ℚ :=
  if s = "bullish" then 1 else if s = "bearish" then -1 else 0

/-- Confidence sanitization inside the combination loop: NaN/None become
0.5 (unrepresentable in exact rationals), then
`confidence = max(0.0, min(float(confidence), 1.0))`. -/
def clampConfidence (c : ℚ) : ℚ := max 0 (min c 1)

/-- The strategy weights dict of `TechnicalAnalystAgent.__init__`:
trend 0.25, mean_reversion 0.20, momentum 0.25, volatility 0.15,
stat_arb 0.15. -/
def weightedEntries (s : StrategySignals) : List (ℚ × StrategySignal) :=
  [(1/4, s.trend), (1/5, s.mean_reversion), (1/4, s.momentum),
   (3/20, s.volatility), (3/20, s.stat_arb)]

/-- The normalized score of `_weighted_signal_combination`:
`weighted_sum / total_confidence`, or 0 when the total weight is 0. -/
def finalScore (s : StrategySignals) : ℚ :=
  let weighted_sum :=
    ((weightedEntries s).map
      (fun e => signalValue e.2.signal * e.1 * clampConfidence e.2.confidence)).sum
  let total_confidence :=
    ((weightedEntries s).map
      (fun e => e.1 * clampConfidence e.2.confidence)).sum
  if 0 < total_confidence then weighted_sum / total_confidence else 0

/-- Embedding of `TechnicalAnalystAgent._weighted_signal_combination`
(technical_analyst.py lines 472-528): returns the combined signal string
and a confidence on the [0,1] scale, `max(0, min(|final_score|, 1))`. -/
def _weighted_signal_combination (s : StrategySignals) : StrategySignal :=
  let final_score := finalScore s
  let sig :=
    if 1/5 < final_score then "bullish"
    else if final_score < -(1/5) then "bearish"
    else "neutral"
  { signal := sig, confidence := max 0 (min |final_score| 1) }

/-- Embedding of `TechnicalAnalystAgent._safe_round` on an exact rational
(the NaN/None branches cannot arise): Python `int(round(float(value)))`. -/
def _safe_round (q : ℚ) : ℤ := pyRound q

/-- The confidence stored in the per-ticker `AnalystSignal` by `analyze`
(technical_analyst.py line 103):
`_safe_round(combined_signal["confidence"] * 100)`. -/
def analyzeConfidence (s : StrategySignals) : ℤ :=
  _safe_round ((_weighted_signal_combination s).confidence * 100)

/-- A concrete sub-strategy input for checking the ensemble confidence
claim: a bullish trend at confidence 0.9, the other four strategies
neutral at their 0.5 default. -/
def c7Input : StrategySignals :=
  { trend := { signal := "bullish", confidence := 9/10 },
    mean_reversion := { signal := "neutral", confidence := 1/2 },
    momentum := { signal := "neutral", confidence := 1/2 },
    volatility := { signal := "neutral", confidence := 1/2 },
    stat_arb := { signal := "neutral", confidence := 1/2 } }

/-- One OHLCV bar of a fetched price series. -/
structure PriceBar where
  openPrice : ℚ
  high : ℚ
  low : ℚ
  close : ℚ
  volume : ℚ
deriving Repr, DecidableEq

/-- The set of tickers that receive an entry in the result map of
`TechnicalAnalystAgent.analyze` (technical_analyst.py lines 31-113): the
loop over `tickers` executes `continue` when the fetched series is empty
(line 41-43), otherwise it stores a signal under the ticker.  This
captures exactly the key set of the returned dict. -/
def technicalAnalyzeKeys (tickers : List String)
    (fetch : String → List PriceBar) : List String :=
  tickers.foldl (fun acc t => if (fetch t).isEmpty then acc else acc ++ [t]) []

/-! ## Decision orchestrator risk clamp (`trading_system/mixgo.py`) -/

/-- The `MegaAgentDecision` pydantic model of mixgo.py lines 9-14. -/
structure MegaAgentDecision where
  action : String
  quantity : ℤ
  confidence : ℚ
  reasoning : String
deriving Repr, DecidableEq

/-- Modelled from the spec: the `AnalystSignal` class lives in
`signals/data/models.py`, which is not part of the provided sources; the
spec's data model (section 3) gives
`{signal, confidence ∈ [0,100], reasoning, optional max_position_size}`.
Only the fields the in-source callers read are carried (the structured
reasoning map is read nowhere relevant to the claims). -/
structure AnalystSignal where
  signal : String
  confidence : ℚ
  max_position_size : Option ℤ
deriving Repr, DecidableEq

/-- The annotation appended to the reasoning when a quantity is reduced
(mixgo.py line 204).  Python renders the numbers with thousands
separators; the exact digit formatting is immaterial here. -/
def riskAdjustmentNote (original_qty new_qty : ℤ) : String :=
  " [Risk-adjusted from " ++ toString original_qty ++ " to "
    ++ toString new_qty
    ++ " shares based on Kelly Criterion and portfolio limits]"

/-- The note appended when the position is blocked (mixgo.py line 212). -/
def blockedNote : String :=
  " [Position blocked by risk management - insufficient risk budget]"

/-- Embedding of `MixGoAgent._apply_risk_constraints` (mixgo.py
lines 184-216).  `risk_signal = none` models a missing risk signal for the
ticker (the `if not risk_signal` test); `max_position_size or 0` maps a
missing field to 0. -/
def _apply_risk_constraints (decision : MegaAgentDecision)
    (risk_signal : Option AnalystSignal) : MegaAgentDecision :=
  match risk_signal with
  | none => decision
  | some rs =>
    if decision.action = "hold" then decision
    else
      let max_position_size : ℤ := (rs.max_position_size).getD 0
      let d1 : MegaAgentDecision :=
        if max_position_size < decision.quantity then
          { decision with
              quantity := max_position_size,
              reasoning := decision.reasoning
                ++ riskAdjustmentNote decision.quantity max_position_size }
        else decision
      if max_position_size = 0 then
        { d1 with
            action := "hold",
            quantity := 0,
            confidence := min d1.confidence 30,
            reasoning := d1.reasoning ++ blockedNote }
      else if (d1.quantity : ℚ) < (max_position_size : ℚ) * (1/2) then
        { d1 with confidence := min d1.confidence 70 }
      else d1

/-! ## LLM call with retries (`signals/utils/llm.py`) -/

/-- Embedding of `_create_default_response` (llm.py lines 243-262)
specialized at the `MegaAgentDecision` model: its fields are
`action: str`, `quantity: int`, `confidence: float`, `reasoning: str`, so
the constructed default fills the strings with
"Error in analysis, using default", the int with 0 and the float with
0.0. -/
def _create_default_response : MegaAgentDecision :=
  { action := "Error in analysis, using default",
    quantity := 0,
    confidence := 0,
    reasoning := "Error in analysis, using default" }

/-- Outcome of one iteration of the retry loop in `call_llm`
(llm.py lines 32-168): the provider call can raise (`callFailure`, the
outer except), return a falsy payload (`emptyResult`, skipping the parse
block), the parse/validation of the payload can raise (`parseFailure`,
the inner except), or a decision is validated and returned. -/
inductive LLMAttempt : Type
  | callFailure : LLMAttempt
  | emptyResult : LLMAttempt
  | parseFailure : LLMAttempt
  | parsed : MegaAgentDecision → LLMAttempt
deriving Repr, DecidableEq

/-- The bounded retry count of `call_llm` (`max_retries: int = 3`, which
is what `LLMClient.generate_decision` passes). -/
def max_retries : ℕ := 3

/-- The retry loop of `call_llm`: `attempt` is the loop index,
`remaining` the iterations left.  A validated decision returns
immediately; a call or parse failure on the last attempt returns the
deterministic default (no `default_factory` is passed by
`generate_decision`); a falsy payload falls through, ending in the
post-loop default. -/
def call_llmLoop (env : ℕ → LLMAttempt) : ℕ → ℕ → MegaAgentDecision
  | _, 0 => _create_default_response
  | attempt, remaining + 1 =>
    match env attempt with
    | .parsed d => d
    | .emptyResult => call_llmLoop env (attempt + 1) remaining
    | .callFailure =>
      if remaining = 0 then _create_default_response
      else call_llmLoop env (attempt + 1) remaining
    | .parseFailure =>
      if remaining = 0 then _create_default_response
      else call_llmLoop env (attempt + 1) remaining

/-- Embedding of `call_llm` (llm.py lines 16-173) at the control-flow
level: `env n` is what the nth loop iteration observes from the external
reasoning collaborator. -/
def call_llm (env : ℕ → LLMAttempt) : MegaAgentDecision :=
  call_llmLoop env 0 max_retries

/-- The decision the spec claims as the parse-failure fallback:
`{hold, 0, 50, "error"}` (spec sections 4.3 and 7).  Stated for
comparison with `_create_default_response`, which is taken from the
source. -/
def specFallbackDecision : MegaAgentDecision :=
  { action := "hold", quantity := 0, confidence := 50, reasoning := "error" }

/-! ## Helper lemmas -/

lemma pyInt_le {q : ℚ} (h : 0 ≤ q) : (pyInt q : ℚ) ≤ q := by
  simp only [pyInt, if_pos h]
  exact_mod_cast Int.floor_le q

lemma mem_of_getElemOpt {α : Type} {l : List α} {i : ℕ} {a : α}
    (h : l[i]? = some a) : a ∈ l := by
  obtain ⟨hl, rfl⟩ := List.getElem?_eq_some.mp h
  exact List.getElem_mem hl

lemma lt_length_of_getElemOpt {α : Type} {l : List α} {i : ℕ} {a : α}
    (h : l[i]? = some a) : i < l.length :=
  (List.getElem?_eq_some.mp h).1

lemma technicalAnalyzeKeys_go (fetch : String → List PriceBar) :
    ∀ (tickers acc : List String),
      tickers.foldl
          (fun acc t => if (fetch t).isEmpty then acc else acc ++ [t]) acc
        = acc ++ tickers.filter (fun t => !(fetch t).isEmpty) := by
  intro tickers
  induction tickers with
  | nil => simp
  | cons t ts ih =>
    intro acc
    simp only [List.foldl_cons]
    by_cases hE : (fetch t).isEmpty
    · rw [if_pos hE, ih, List.filter_cons]
      simp [hE]
    · rw [if_neg hE, ih, List.filter_cons]
      simp [hE]

lemma rmPositionsValue_eq (l : List Position) :
    rmPositionsValue l =
      (l.map (fun pos => (pos.long : ℚ) * pos.long_cost_basis)).sum
        + (l.map (fun pos => (pos.short : ℚ) * pos.short_cost_basis)).sum := by
  induction l with
  | nil => simp [rmPositionsValue]
  | cons a l ih =>
    simp only [rmPositionsValue, List.map_cons, List.sum_cons] at ih ⊢
    have h1 : (if a.long ≠ 0 ∧ a.long_cost_basis ≠ 0 then
          (a.long : ℚ) * a.long_cost_basis else 0)
        = (a.long : ℚ) * a.long_cost_basis := by
      split_ifs with h
      · rfl
      · push_neg at h
        by_cases hl : a.long = 0
        · simp [hl]
        · simp [h hl]
    have h2 : (if a.short ≠ 0 ∧ a.short_cost_basis ≠ 0 then
          (a.short : ℚ) * a.short_cost_basis else 0)
        = (a.short : ℚ) * a.short_cost_basis := by
      split_ifs with h
      · rfl
      · push_neg at h
        by_cases hs : a.short = 0
        · simp [hs]
        · simp [h hs]
    rw [h1, h2] at *
    rw [ih]
    ring

/-! ## Claim theorems -/

/-- C1, counterexample: when all three retry attempts fail to parse, the
decision `call_llm` produces is not the `{hold, 0, 50, "error"}` fallback
the claim states (its action is "Error in analysis, using default" and its
confidence is 0). -/
theorem C1_counterexample :
    call_llm (fun _ => LLMAttempt.parseFailure) ≠ specFallbackDecision ∧
    (call_llm (fun _ => LLMAttempt.parseFailure)).confidence = 0 ∧
    (call_llm (fun _ => LLMAttempt.parseFailure)).action
      = "Error in analysis, using default" := by
  refine ⟨?_, rfl, rfl⟩
  decide

/-- C1 (amended): if no attempt of the bounded retry loop (3 attempts)
yields a validated decision, `call_llm` returns the deterministic default
built by `_create_default_response` from the model's field types:
`{action = "Error in analysis, using default", quantity = 0,
confidence = 0, reasoning = "Error in analysis, using default"}`. -/
theorem C1_llm_fallback (env : ℕ → LLMAttempt)
    (h : ∀ n d, env n ≠ LLMAttempt.parsed d) :
    call_llm env = _create_default_response := by
  show call_llmLoop env 0 3 = _create_default_response
  have e0 : call_llmLoop env 0 3 = call_llmLoop env 1 2 := by
    cases hv : env 0 with
    | parsed d => exact absurd hv (h 0 d)
    | callFailure => simp [call_llmLoop, hv]
    | emptyResult => simp [call_llmLoop, hv]
    | parseFailure => simp [call_llmLoop, hv]
  have e1 : call_llmLoop env 1 2 = call_llmLoop env 2 1 := by
    cases hv : env 1 with
    | parsed d => exact absurd hv (h 1 d)
    | callFailure => simp [call_llmLoop, hv]
    | emptyResult => simp [call_llmLoop, hv]
    | parseFailure => simp [call_llmLoop, hv]
  have e2 : call_llmLoop env 2 1 = _create_default_response := by
    cases hv : env 2 with
    | parsed d => exact absurd hv (h 2 d)
    | callFailure => simp [call_llmLoop, hv]
    | emptyResult => simp [call_llmLoop, hv]
    | parseFailure => simp [call_llmLoop, hv]
  rw [e0, e1, e2]

/-- C1, witness: the amended theorem applied to the run where every
attempt is a parse failure. -/
theorem C1_llm_fallback_witness :
    call_llm (fun _ => LLMAttempt.parseFailure) = _create_default_response :=
  C1_llm_fallback (fun _ => LLMAttempt.parseFailure)
    (fun _ _ hp => LLMAttempt.noConfusion hp)

/-- C2, counterexample: for a ticker whose fetched price series is empty,
`TechnicalAnalystAgent.analyze` does not put an entry in its result map:
the loop skips the ticker, so the key set is empty. -/
theorem C2_counterexample :
    technicalAnalyzeKeys ["AAPL"] (fun _ => []) = [] ∧
    "AAPL" ∉ technicalAnalyzeKeys ["AAPL"] (fun _ => []) := by
  constructor
  · rfl
  · intro hmem
    simp [technicalAnalyzeKeys] at hmem

/-- C2 (amended): `analyze` returns an entry for exactly the tickers whose
fetched price series is nonempty; a ticker with an empty series is skipped
(no entry, no exception), while a short-but-nonempty series still gets an
entry. -/
theorem C2_analyze_keys (t : String) (tickers : List String)
    (fetch : String → List PriceBar) :
    t ∈ technicalAnalyzeKeys tickers fetch ↔ t ∈ tickers ∧ fetch t ≠ [] := by
  unfold technicalAnalyzeKeys
  rw [technicalAnalyzeKeys_go]
  simp [List.mem_filter]

/-- C2, witness: with one ticker backed by a one-bar series, the entry is
present; an unfetched ticker is absent. -/
theorem C2_analyze_keys_witness :
    "AAPL" ∈ technicalAnalyzeKeys ["AAPL"]
      (fun _ => [{ openPrice := 1, high := 1, low := 1, close := 1,
                   volume := 1 }]) := by
  rw [C2_analyze_keys]
  exact ⟨by simp, by simp⟩

/-- C3, counterexample: a portfolio with no positions and cash 0 has
summary `total_value` 10000 (the floor applied by
`_calculate_portfolio_value`), not its cash 0 as the claim states. -/
theorem C3_counterexample :
    get_portfolio_summary_total_value
        { cash := 0, margin_used := 0, margin_requirement := 0,
          positions := [], realized_gains := [] } = 10000 ∧
    (10000 : ℚ) ≠ 0 := by
  constructor
  · simp [get_portfolio_summary_total_value, rm_calculate_portfolio_value,
      rmPositionsValue]
  · norm_num

/-- C3 (amended): the Risk Manager's summary `total_value` equals
`max(cash + Σ(long_qty·long_cost_basis) + Σ(short_qty·short_cost_basis),
10000)`; in particular, for a portfolio with no positions it equals
`max(cash, 10000)`. -/
theorem C3_total_value (p : Portfolio) :
    get_portfolio_summary_total_value p = max (specTotalValue p) 10000 ∧
    (p.positions = [] →
      get_portfolio_summary_total_value p = max p.cash 10000) := by
  have hbase : get_portfolio_summary_total_value p
      = max (specTotalValue p) 10000 := by
    unfold get_portfolio_summary_total_value rm_calculate_portfolio_value
      specTotalValue
    rw [rmPositionsValue_eq, add_assoc]
  refine ⟨hbase, fun hnil => ?_⟩
  rw [hbase]
  unfold specTotalValue
  rw [hnil]
  simp

/-- C3, witness: the amended theorem applied to the empty portfolio with
cash 500: the summary value is `max 500 10000 = 10000`. -/
theorem C3_total_value_witness :
    get_portfolio_summary_total_value
        { cash := 500, margin_used := 0, margin_requirement := 0,
          positions := [], realized_gains := [] } = max (500 : ℚ) 10000 :=
  (C3_total_value _).2 rfl

lemma drawdownStep_nonpos {α : Type} (st : DrawdownState α) (vd : ℚ × α)
    (h : st.max_drawdown ≤ 0) : (drawdownStep st vd).max_drawdown ≤ 0 := by
  unfold drawdownStep
  dsimp only
  split_ifs with h1 h2
  · exact h
  · exact le_of_lt (lt_of_lt_of_le h2 h)
  · exact h

lemma drawdown_fold_nonpos {α : Type} :
    ∀ (l : List (ℚ × α)) (st : DrawdownState α), st.max_drawdown ≤ 0 →
      (l.foldl drawdownStep st).max_drawdown ≤ 0 := by
  intro l
  induction l with
  | nil => intro st h; exact h
  | cons vd l ih =>
    intro st h
    exact ih (drawdownStep st vd) (drawdownStep_nonpos st vd h)

lemma drawdown_fold_monotone {α : Type} :
    ∀ (vs : List ℚ) (ds : List α) (v0 : ℚ) (st : DrawdownState α),
      List.Chain' (· ≤ ·) (v0 :: vs) → st.peak_value = v0 →
      st.max_drawdown = 0 →
      ((vs.zip ds).foldl drawdownStep st).max_drawdown = 0 := by
  intro vs
  induction vs with
  | nil => intro ds v0 st _ _ h2; simpa using h2
  | cons v1 vs ih =>
    intro ds v0 st hchain hpeak hmdd
    cases ds with
    | nil => simpa using hmdd
    | cons d1 ds =>
      have hv01 : v0 ≤ v1 := (List.chain'_cons.mp hchain).1
      have hchain2 : List.Chain' (· ≤ ·) (v1 :: vs) :=
        (List.chain'_cons.mp hchain).2
      simp only [List.zip_cons_cons, List.foldl_cons]
      by_cases hlt : st.peak_value < v1
      · refine ih ds v1 (drawdownStep st (v1, d1)) hchain2 ?_ ?_
        · simp [drawdownStep, hlt]
        · simp [drawdownStep, hlt, hmdd]
      · have hpe : v1 = v0 := by
          refine le_antisymm ?_ hv01
          rw [← hpeak]
          exact not_lt.mp hlt
        have hstep : drawdownStep st (v1, d1) = st := by
          unfold drawdownStep
          rw [if_neg hlt]
          have hdd : (v1 - st.peak_value) / st.peak_value = 0 := by
            rw [hpeak, hpe]
            simp
          simp [hdd, hmdd]
        rw [hstep]
        exact ih ds v1 st hchain2 (hpeak.trans hpe.symm) hmdd

/-- C8: the computed maximum drawdown is always nonpositive, is 0 for a
monotonically non-decreasing value series, and on the series
[100, 110, 90, 95] equals (90 − 110)/110 with the recorded date being
that of the 110 peak preceding the 90 trough.  (The code stores the
fraction scaled by 100 in `performance_metrics`, i.e. about −18.18%.) -/
theorem C8_max_drawdown :
    (∀ (values : List ℚ) (dates : List String),
        (computeMaxDrawdown values dates).1 ≤ 0) ∧
    (∀ (values : List ℚ) (dates : List String),
        List.Chain' (· ≤ ·) values → (computeMaxDrawdown values dates).1 = 0) ∧
    computeMaxDrawdown [100, 110, 90, 95] ["d0", "d1", "d2", "d3"]
      = ((90 - 110) / 110, some "d1") := by
  refine ⟨?_, ?_, ?_⟩
  · intro values dates
    match values, dates with
    | [], _ => simp [computeMaxDrawdown]
    | v0 :: vs, [] => simp [computeMaxDrawdown]
    | v0 :: vs, d0 :: ds =>
      exact drawdown_fold_nonpos ((vs.zip ds)) _ le_rfl
  · intro values dates hchain
    match values, dates with
    | [], _ => simp [computeMaxDrawdown]
    | v0 :: vs, [] => simp [computeMaxDrawdown]
    | v0 :: vs, d0 :: ds =>
      exact drawdown_fold_monotone vs ds v0 _ hchain rfl rfl
  · norm_num [computeMaxDrawdown, drawdownStep]

/-- C8, witness: the monotone clause applied to the non-decreasing series
[1, 2, 2, 3]. -/
theorem C8_max_drawdown_witness :
    (computeMaxDrawdown [1, 2, 2, 3] ["a", "b", "c", "d"]).1 = 0 :=
  C8_max_drawdown.2.1 [1, 2, 2, 3] ["a", "b", "c", "d"]
    (by norm_num [List.chain'_cons])

/-- C9: the risk clamp of `MixGoAgent._apply_risk_constraints`.  Hold
decisions pass through unchanged.  With a risk signal present and a
non-hold action: a zero (or missing) `max_position_size` forces
`action = hold, quantity = 0` with confidence capped at 30; otherwise the
quantity is capped at `max_position_size` (the reasoning text annotated
when the quantity was reduced), and when the resulting quantity is below
half the ceiling the confidence is capped at 70. -/
theorem C9_risk_clamp :
    (∀ (d : MegaAgentDecision) (rs : Option AnalystSignal),
        d.action = "hold" → _apply_risk_constraints d rs = d) ∧
    (∀ (d : MegaAgentDecision) (s : AnalystSignal), d.action ≠ "hold" →
        s.max_position_size.getD 0 = 0 →
        (_apply_risk_constraints d (some s)).action = "hold" ∧
        (_apply_risk_constraints d (some s)).quantity = 0 ∧
        (_apply_risk_constraints d (some s)).confidence ≤ 30) ∧
    (∀ (d : MegaAgentDecision) (s : AnalystSignal), d.action ≠ "hold" →
        s.max_position_size.getD 0 ≠ 0 →
        (_apply_risk_constraints d (some s)).quantity
            = min d.quantity (s.max_position_size.getD 0) ∧
        (s.max_position_size.getD 0 < d.quantity →
          (_apply_risk_constraints d (some s)).reasoning
            = d.reasoning
              ++ riskAdjustmentNote d.quantity (s.max_position_size.getD 0)) ∧
        (((_apply_risk_constraints d (some s)).quantity : ℚ)
              < (s.max_position_size.getD 0 : ℚ) * (1/2) →
          (_apply_risk_constraints d (some s)).confidence ≤ 70)) := by
  refine ⟨?_, ?_, ?_⟩
  · intro d rs hhold
    cases rs with
    | none => rfl
    | some s =>
      unfold _apply_risk_constraints
      dsimp only
      rw [if_pos hhold]
  · intro d s hhold hzero
    unfold _apply_risk_constraints
    dsimp only
    rw [if_neg hhold]
    rw [hzero]
    simp only [if_pos rfl]
    refine ⟨rfl, rfl, ?_⟩
    split_ifs <;> exact min_le_right _ _
  · intro d s hhold hnz
    unfold _apply_risk_constraints
    dsimp only
    rw [if_neg hhold]
    rw [if_neg hnz]
    by_cases hclip : s.max_position_size.getD 0 < d.quantity
    · rw [if_pos hclip]
      dsimp only
      have hq : min d.quantity (s.max_position_size.getD 0)
          = s.max_position_size.getD 0 := min_eq_right (le_of_lt hclip)
      split_ifs with hhalf
      · exact ⟨hq.symm, fun _ => rfl, fun _ => min_le_right _ _⟩
      · exact ⟨hq.symm, fun _ => rfl, fun hc => absurd hc hhalf⟩
    · rw [if_neg hclip]
      have hq : min d.quantity (s.max_position_size.getD 0) = d.quantity :=
        min_eq_left (not_lt.mp hclip)
      split_ifs with hhalf
      · exact ⟨hq.symm, fun hc => absurd hc hclip,
          fun _ => min_le_right _ _⟩
      · exact ⟨hq.symm, fun hc => absurd hc hclip,
          fun hc => absurd hc hhalf⟩

/-- C9, witness: a buy for 100 shares against a zero ceiling is forced to
hold, and a buy for 10 shares against a ceiling of 40 (quantity below half
the ceiling) has its confidence capped at 70. -/
theorem C9_risk_clamp_witness :
    (_apply_risk_constraints
        { action := "buy", quantity := 100, confidence := 90,
          reasoning := "r" }
        (some { signal := "risk_management", confidence := 50,
                max_position_size := some 0 })).action = "hold" ∧
    (_apply_risk_constraints
        { action := "buy", quantity := 10, confidence := 90,
          reasoning := "r" }
        (some { signal := "risk_management", confidence := 50,
                max_position_size := some 40 })).confidence ≤ 70 := by
  constructor
  · exact (C9_risk_clamp.2.1 _ _ (by decide) (by decide)).1
  · have h := C9_risk_clamp.2.2
      { action := "buy", quantity := 10, confidence := 90, reasoning := "r" }
      { signal := "risk_management", confidence := 50,
        max_position_size := some 40 } (by decide) (by decide)
    refine h.2.2 ?_
    rw [h.1]
    norm_num

/-- C7, counterexample to the exact confidence equation: with a bullish
trend at confidence 0.9 and the rest neutral at 0.5, the normalized score
is 3/8, so `clamp(|final_score|, 0, 1) · 100 = 37.5`, but the confidence
`analyze` stores is the integer `_safe_round(conf · 100) = 38`. -/
theorem C7_counterexample :
    finalScore c7Input = 3/8 ∧
    analyzeConfidence c7Input = 38 ∧
    ((analyzeConfidence c7Input : ℚ)
      ≠ max 0 (min |finalScore c7Input| 1) * 100) := by
  have hfs : finalScore c7Input = 3/8 := by
    have hb : signalValue "bullish" = 1 := rfl
    have hn : signalValue "neutral" = 0 := rfl
    simp only [finalScore, weightedEntries, c7Input, List.map_cons,
      List.map_nil, List.sum_cons, List.sum_nil, hb, hn, clampConfidence]
    norm_num
  have hac : analyzeConfidence c7Input = 38 := by
    show pyRound (max 0 (min |finalScore c7Input| 1) * 100) = 38
    rw [hfs]
    have h1 : max 0 (min |(3:ℚ)/8| 1) * 100 = 75/2 := by
      rw [abs_of_nonneg (by norm_num : (0:ℚ) ≤ 3/8)]
      norm_num
    rw [h1]
    have hfl : (⌊(75:ℚ)/2⌋ : ℤ) = 37 := by
      rw [Int.floor_eq_iff]
      norm_num
    unfold pyRound
    rw [hfl]
    rw [if_pos (by norm_num)]
    norm_num
  refine ⟨hfs, hac, ?_⟩
  rw [hfs, hac]
  rw [abs_of_nonneg (by norm_num : (0:ℚ) ≤ 3/8)]
  norm_num

/-- C7 (amended): when all five sub-strategies are neutral the combined
signal is neutral; the combined signal is bullish exactly when the
normalized weighted score exceeds 0.2 and bearish exactly when it is below
−0.2; the combination's confidence is `clamp(|final_score|, 0, 1)` on the
[0,1] scale, and the confidence `analyze` stores is that value scaled by
100 and rounded to an integer; the score is 0 when the total weight is
not positive. -/
theorem C7_ensemble (s : StrategySignals) :
    ((s.trend.signal = "neutral" ∧ s.mean_reversion.signal = "neutral" ∧
      s.momentum.signal = "neutral" ∧ s.volatility.signal = "neutral" ∧
      s.stat_arb.signal = "neutral") →
        (_weighted_signal_combination s).signal = "neutral") ∧
    ((_weighted_signal_combination s).signal = "bullish"
        ↔ 1/5 < finalScore s) ∧
    ((_weighted_signal_combination s).signal = "bearish"
        ↔ finalScore s < -(1/5)) ∧
    (_weighted_signal_combination s).confidence
        = max 0 (min |finalScore s| 1) ∧
    analyzeConfidence s = pyRound (max 0 (min |finalScore s| 1) * 100) ∧
    (((weightedEntries s).map
        (fun e => e.1 * clampConfidence e.2.confidence)).sum ≤ 0 →
      finalScore s = 0) := by
  refine ⟨?_, ?_, ?_, rfl, rfl, ?_⟩
  · rintro ⟨h1, h2, h3, h4, h5⟩
    have hfs : finalScore s = 0 := by
      have hn : signalValue "neutral" = 0 := rfl
      simp only [finalScore, weightedEntries, List.map_cons, List.map_nil,
        List.sum_cons, List.sum_nil, h1, h2, h3, h4, h5, hn]
      norm_num
    unfold _weighted_signal_combination
    rw [hfs]
    norm_num
  · unfold _weighted_signal_combination
    dsimp only
    split_ifs with hgt hlt
    · exact iff_of_true rfl hgt
    · exact iff_of_false (by decide) hgt
    · exact iff_of_false (by decide) hgt
  · unfold _weighted_signal_combination
    dsimp only
    split_ifs with hgt hlt
    · exact iff_of_false (by decide)
        (fun hc => (lt_asymm hgt) (hc.trans (by norm_num)))
    · exact iff_of_true rfl hlt
    · exact iff_of_false (by decide) hlt
  · intro hle
    unfold finalScore
    dsimp only
    rw [if_neg (not_lt.mpr hle)]

/-- C7, witness: the all-neutral clause applied to five neutral signals at
confidence 0.5, and the zero-weight clause applied to five neutral
signals at confidence 0. -/
theorem C7_ensemble_witness :
    (_weighted_signal_combination
        { trend := { signal := "neutral", confidence := 1/2 },
          mean_reversion := { signal := "neutral", confidence := 1/2 },
          momentum := { signal := "neutral", confidence := 1/2 },
          volatility := { signal := "neutral", confidence := 1/2 },
          stat_arb := { signal := "neutral", confidence := 1/2 } }).signal
      = "neutral" ∧
    finalScore
        { trend := { signal := "neutral", confidence := 0 },
          mean_reversion := { signal := "neutral", confidence := 0 },
          momentum := { signal := "neutral", confidence := 0 },
          volatility := { signal := "neutral", confidence := 0 },
          stat_arb := { signal := "neutral", confidence := 0 } } = 0 := by
  constructor
  · exact (C7_ensemble _).1 ⟨rfl, rfl, rfl, rfl, rfl⟩
  · refine (C7_ensemble _).2.2.2.2.2 ?_
    simp only [weightedEntries, List.map_cons, List.map_nil, List.sum_cons,
      List.sum_nil, clampConfidence]
    norm_num

lemma kellyUnhalved_bounds (closes : List ℚ) :
    0 ≤ kellyUnhalved closes ∧ kellyUnhalved closes ≤ 1/5 := by
  unfold kellyUnhalved
  refine ⟨le_max_left _ _, max_le (by norm_num) (min_le_right _ _)⟩

lemma pctChange_length (closes : List ℚ) :
    (pctChange closes).length = closes.length - 1 := by
  unfold pctChange
  rw [List.length_zipWith, List.length_tail]
  omega

lemma sum_neg_of_all_neg :
    ∀ (l : List ℚ), (∀ x ∈ l, x < 0) → l ≠ [] → l.sum < 0
  | [], _, hne => absurd rfl hne
  | [a], h, _ => by simpa using h a (by simp)
  | a :: b :: t, h, _ => by
    rw [List.sum_cons]
    have h1 : a < 0 := h a (by simp)
    have h2 : (b :: t).sum < 0 :=
      sum_neg_of_all_neg (b :: t) (fun x hx => h x (by simp [hx]))
        (by simp)
    linarith

lemma filter_pos_avg_ne {l : List ℚ}
    (h : (l.filter (fun r => 0 < r)).length ≠ 0) :
    (l.filter (fun r => 0 < r)).sum
        / ((l.filter (fun r => 0 < r)).length : ℚ) ≠ 0 := by
  have hne : l.filter (fun r => 0 < r) ≠ [] := by
    intro hnil
    exact h (by rw [hnil]; rfl)
  have hsum : 0 < (l.filter (fun r => 0 < r)).sum := by
    apply List.sum_pos
    · intro x hx
      exact of_decide_eq_true (List.mem_filter.mp hx).2
    · exact hne
  have hlen : (0 : ℚ) < ((l.filter (fun r => 0 < r)).length : ℚ) := by
    have : 0 < (l.filter (fun r => 0 < r)).length := Nat.pos_of_ne_zero h
    exact_mod_cast this
  exact ne_of_gt (div_pos hsum hlen)

lemma filter_neg_avg_ne {l : List ℚ}
    (h : (l.filter (fun r => r < 0)).length ≠ 0) :
    |(l.filter (fun r => r < 0)).sum
        / ((l.filter (fun r => r < 0)).length : ℚ)| ≠ 0 := by
  have hne : l.filter (fun r => r < 0) ≠ [] := by
    intro hnil
    exact h (by rw [hnil]; rfl)
  have hsum : (l.filter (fun r => r < 0)).sum < 0 := by
    apply sum_neg_of_all_neg
    · intro x hx
      exact of_decide_eq_true (List.mem_filter.mp hx).2
    · exact hne
  have hlen : (0 : ℚ) < ((l.filter (fun r => r < 0)).length : ℚ) := by
    have : 0 < (l.filter (fun r => r < 0)).length := Nat.pos_of_ne_zero h
    exact_mod_cast this
  have : (l.filter (fun r => r < 0)).sum
      / ((l.filter (fun r => r < 0)).length : ℚ) < 0 :=
    div_neg_of_neg_of_pos hsum hlen
  intro habs
  exact ne_of_lt this (abs_eq_zero.mp habs)

/-- C6: the Kelly fraction of
`RiskManager._calculate_kelly_fraction_polars` always lies in [0, 0.20];
it is the conservative default 0.02 when there are fewer than 30 bars,
fewer than 10 return samples, or all returns of one sign; and on the main
path a volatility above 0.5 halves the clamped fraction (which then still
lies in [0, 0.20] by the first clause). -/
theorem C6_kelly (closes : List ℚ) (volatility : ℚ) :
    (0 ≤ _calculate_kelly_fraction_polars closes volatility ∧
      _calculate_kelly_fraction_polars closes volatility ≤ 1/5) ∧
    (closes.length < 30 →
      _calculate_kelly_fraction_polars closes volatility = 1/50) ∧
    ((pctChange closes).length < 10 →
      _calculate_kelly_fraction_polars closes volatility = 1/50) ∧
    ((((pctChange closes).filter (fun r => 0 < r)).length = 0 ∨
      ((pctChange closes).filter (fun r => r < 0)).length = 0) →
      _calculate_kelly_fraction_polars closes volatility = 1/50) ∧
    (¬ closes.length < 30 →
      ((pctChange closes).filter (fun r => 0 < r)).length ≠ 0 →
      ((pctChange closes).filter (fun r => r < 0)).length ≠ 0 →
      1/2 < volatility →
      _calculate_kelly_fraction_polars closes volatility
        = kellyUnhalved closes * (1/2)) := by
  refine ⟨?_, ?_, ?_, ?_, ?_⟩
  · unfold _calculate_kelly_fraction_polars
    dsimp only
    split_ifs
    · exact ⟨by norm_num, by norm_num⟩
    · exact ⟨by norm_num, by norm_num⟩
    · exact ⟨by norm_num, by norm_num⟩
    · exact ⟨by norm_num, by norm_num⟩
    · obtain ⟨h0, h5⟩ := kellyUnhalved_bounds closes
      constructor
      · positivity
      · nlinarith
    · exact kellyUnhalved_bounds closes
  · intro h30
    unfold _calculate_kelly_fraction_polars
    rw [if_pos h30]
  · intro hret
    by_cases h30 : closes.length < 30
    · unfold _calculate_kelly_fraction_polars
      rw [if_pos h30]
    · exfalso
      rw [pctChange_length] at hret
      omega
  · intro hfilters
    unfold _calculate_kelly_fraction_polars
    dsimp only
    by_cases h30 : closes.length < 30
    · rw [if_pos h30]
    · rw [if_neg h30]
      by_cases hret : (pctChange closes).length < 10
      · rw [if_pos hret]
      · rw [if_neg hret]
        rw [if_pos hfilters]
  · intro h30 hpos hneg hvol
    unfold _calculate_kelly_fraction_polars
    dsimp only
    rw [if_neg h30]
    rw [if_neg (by rw [pctChange_length]; omega)]
    rw [if_neg (not_or.mpr ⟨hpos, hneg⟩)]
    rw [if_neg (not_or.mpr ⟨filter_neg_avg_ne hneg, filter_pos_avg_ne hpos⟩)]
    rw [if_pos hvol]

/-- C6, witness: the short-data clause applied to an empty price series:
the fraction is the conservative default 0.02. -/
theorem C6_kelly_witness :
    _calculate_kelly_fraction_polars [] 0 = 1/50 :=
  (C6_kelly [] 0).2.1 (by norm_num)

lemma map_sum_set {α : Type} (f : α → ℚ) :
    ∀ (l : List α) (i : ℕ) (a b : α), l[i]? = some a →
      ((l.set i b).map f).sum = (l.map f).sum - f a + f b := by
  intro l
  induction l with
  | nil =>
    intro i a b h
    simp at h
  | cons x xs ih =>
    intro i a b h
    cases i with
    | zero =>
      simp only [List.getElem?_cons_zero, Option.some_inj] at h
      subst h
      simp only [List.set_cons_zero, List.map_cons, List.sum_cons]
      ring
    | succ n =>
      simp only [List.getElem?_cons_succ] at h
      simp only [List.set_cons_succ, List.map_cons, List.sum_cons]
      rw [ih n a b h]
      ring

lemma not_guard {q : ℤ} {price : ℚ} (hq : 0 < q) (hprice : 0 < price) :
    ¬(q ≤ 0 ∨ price ≤ 0) := by
  push_neg
  exact ⟨hq, hprice⟩

lemma execute_trade_eq_buy (p : Portfolio) (i : ℕ) (q : ℤ) (price : ℚ)
    (position : Position) (hi : p.positions[i]? = some position)
    (hq : 0 < q) (hprice : 0 < price) :
    _execute_trade p i "buy" q price = executeBuy p i position q price := by
  unfold _execute_trade
  rw [if_neg (not_guard hq hprice), hi]
  dsimp only
  rw [if_pos rfl]

lemma execute_trade_eq_sell (p : Portfolio) (i : ℕ) (q : ℤ) (price : ℚ)
    (position : Position) (hi : p.positions[i]? = some position)
    (hq : 0 < q) (hprice : 0 < price) :
    _execute_trade p i "sell" q price = executeSell p i position q price := by
  unfold _execute_trade
  rw [if_neg (not_guard hq hprice), hi]
  dsimp only
  rw [if_neg (by decide), if_pos rfl]

lemma execute_trade_eq_short (p : Portfolio) (i : ℕ) (q : ℤ) (price : ℚ)
    (position : Position) (hi : p.positions[i]? = some position)
    (hq : 0 < q) (hprice : 0 < price) :
    _execute_trade p i "short" q price = executeShort p i position q price := by
  unfold _execute_trade
  rw [if_neg (not_guard hq hprice), hi]
  dsimp only
  rw [if_neg (by decide), if_neg (by decide), if_pos rfl]

lemma execute_trade_eq_cover (p : Portfolio) (i : ℕ) (q : ℤ) (price : ℚ)
    (position : Position) (hi : p.positions[i]? = some position)
    (hq : 0 < q) (hprice : 0 < price) :
    _execute_trade p i "cover" q price = executeCover p i position q price := by
  unfold _execute_trade
  rw [if_neg (not_guard hq hprice), hi]
  dsimp only
  rw [if_neg (by decide), if_neg (by decide), if_neg (by decide), if_pos rfl]

lemma executeBuy_margin (p : Portfolio) (i : ℕ) (position : Position)
    (q : ℤ) (price : ℚ) (hi : p.positions[i]? = some position) :
    (executeBuy p i position q price).1.margin_used
        - marginSum (executeBuy p i position q price).1
      = p.margin_used - marginSum p := by
  unfold executeBuy marginSum
  dsimp only
  split_ifs <;>
    first
      | rfl
      | (rw [map_sum_set _ p.positions i position _ hi]; dsimp only; ring)

lemma executeSell_margin (p : Portfolio) (i : ℕ) (position : Position)
    (q : ℤ) (price : ℚ) (hi : p.positions[i]? = some position) :
    (executeSell p i position q price).1.margin_used
        - marginSum (executeSell p i position q price).1
      = p.margin_used - marginSum p := by
  unfold executeSell marginSum
  dsimp only
  split_ifs <;>
    first
      | rfl
      | (rw [map_sum_set _ p.positions i position _ hi]; dsimp only; ring)

lemma executeShort_margin (p : Portfolio) (i : ℕ) (position : Position)
    (q : ℤ) (price : ℚ) (hi : p.positions[i]? = some position) :
    (executeShort p i position q price).1.margin_used
        - marginSum (executeShort p i position q price).1
      = p.margin_used - marginSum p := by
  unfold executeShort marginSum
  dsimp only
  split_ifs <;>
    first
      | rfl
      | (rw [map_sum_set _ p.positions i position _ hi]; dsimp only; ring)

lemma executeCover_margin (p : Portfolio) (i : ℕ) (position : Position)
    (q : ℤ) (price : ℚ) (hi : p.positions[i]? = some position) :
    (executeCover p i position q price).1.margin_used
        - marginSum (executeCover p i position q price).1
      = p.margin_used - marginSum p := by
  unfold executeCover marginSum
  dsimp only
  by_cases hmin : 0 < min q position.short
  · rw [if_pos hmin]
    have hsp : 0 < position.short := lt_of_lt_of_le hmin (min_le_right _ _)
    simp only [if_pos hsp]
    by_cases hns : position.short - min q position.short = 0
    · -- fully closed: the whole posted margin is released since portion = 1
      simp only [if_pos hns]
      rw [map_sum_set _ p.positions i position _ hi]
      dsimp only
      have hq_eq : min q position.short = position.short := by omega
      have hne : (position.short : ℚ) ≠ 0 := by
        exact_mod_cast ne_of_gt hsp
      rw [hq_eq, div_self hne]
      ring
    · simp only [if_neg hns]
      rw [map_sum_set _ p.positions i position _ hi]
      dsimp only
      ring
  · rw [if_neg hmin]

lemma execute_trade_margin (p : Portfolio) (i : ℕ) (a : String) (q : ℤ)
    (price : ℚ) :
    (_execute_trade p i a q price).1.margin_used
        - marginSum (_execute_trade p i a q price).1
      = p.margin_used - marginSum p := by
  by_cases hguard : q ≤ 0 ∨ price ≤ 0
  · unfold _execute_trade
    rw [if_pos hguard]
  · unfold _execute_trade
    rw [if_neg hguard]
    cases hpos : p.positions[i]? with
    | none => rfl
    | some position =>
      dsimp only
      by_cases hb : a = "buy"
      · rw [if_pos hb]
        exact executeBuy_margin p i position q price hpos
      · rw [if_neg hb]
        by_cases hs : a = "sell"
        · rw [if_pos hs]
          exact executeSell_margin p i position q price hpos
        · rw [if_neg hs]
          by_cases hsh : a = "short"
          · rw [if_pos hsh]
            exact executeShort_margin p i position q price hpos
          · rw [if_neg hsh]
            by_cases hc : a = "cover"
            · rw [if_pos hc]
              exact executeCover_margin p i position q price hpos
            · rw [if_neg hc]

lemma runTrades_margin (trades : List Trade) :
    ∀ p : Portfolio,
      (runTrades p trades).margin_used - marginSum (runTrades p trades)
        = p.margin_used - marginSum p := by
  induction trades with
  | nil => intro p; rfl
  | cons t ts ih =>
    intro p
    show (runTrades p (t :: ts)).margin_used
        - marginSum (runTrades p (t :: ts)) = _
    unfold runTrades
    rw [List.foldl_cons]
    have hstep := execute_trade_margin p t.ticker t.action t.quantity t.price
    have htail := ih (_execute_trade p t.ticker t.action t.quantity t.price).1
    unfold runTrades at htail
    rw [htail, hstep]

lemma initPortfolio_margin (n : ℕ) (cap mr : ℚ) :
    (initPortfolio n cap mr).margin_used
      = marginSum (initPortfolio n cap mr) := by
  unfold initPortfolio marginSum
  dsimp only
  rw [List.map_replicate]
  simp [Position.init]

/-- C10: starting from the initial portfolio (margin_used 0, every
position's short_margin_used 0), after every sequence of `_execute_trade`
operations the portfolio's `margin_used` equals the sum of
`short_margin_used` over all ticker positions; and a cover that fully
closes a short position resets that ticker's `short_margin_used` and
`short_cost_basis` to 0. -/
theorem C10_margin_ledger :
    (∀ (n : ℕ) (cap mr : ℚ) (trades : List Trade),
        (runTrades (initPortfolio n cap mr) trades).margin_used
          = marginSum (runTrades (initPortfolio n cap mr) trades)) ∧
    (∀ (p : Portfolio) (i : ℕ) (q : ℤ) (price : ℚ) (position : Position),
        p.positions[i]? = some position →
        0 < (_execute_trade p i "cover" q price).2 →
        ((_execute_trade p i "cover" q price).1.positions[i]?.getD
            Position.init).short = 0 →
        ((_execute_trade p i "cover" q price).1.positions[i]?.getD
            Position.init).short_margin_used = 0 ∧
        ((_execute_trade p i "cover" q price).1.positions[i]?.getD
            Position.init).short_cost_basis = 0) := by
  constructor
  · intro n cap mr trades
    have h := runTrades_margin trades (initPortfolio n cap mr)
    have h0 : (initPortfolio n cap mr).margin_used
        - marginSum (initPortfolio n cap mr) = 0 := by
      rw [initPortfolio_margin n cap mr]
      ring
    rw [h0] at h
    linarith [h]
  · intro p i q price position hi hexec hshort
    by_cases hguard : q ≤ 0 ∨ price ≤ 0
    · exfalso
      unfold _execute_trade at hexec
      rw [if_pos hguard] at hexec
      exact absurd hexec (by norm_num)
    · push_neg at hguard
      rw [execute_trade_eq_cover p i q price position hi hguard.1 hguard.2]
        at hexec hshort ⊢
      unfold executeCover at hexec hshort ⊢
      dsimp only at hexec hshort ⊢
      by_cases hmin : 0 < min q position.short
      · rw [if_pos hmin] at hshort ⊢
        rw [List.getElem?_set_eq_of_lt _ (lt_length_of_getElemOpt hi)]
          at hshort ⊢
        dsimp only [Option.getD_some] at hshort ⊢
        rw [if_pos hshort, if_pos hshort]
        exact ⟨rfl, rfl⟩
      · exfalso
        rw [if_neg hmin] at hexec
        exact absurd hexec (by norm_num)

/-- C10, witness: a short of 10 at price 20 under a 50% margin
requirement followed by a full cover keeps `margin_used` equal to the
summed per-ticker margin, and the full cover resets the short fields. -/
theorem C10_margin_ledger_witness :
    (runTrades (initPortfolio 1 100000 (1/2))
        [{ ticker := 0, action := "short", quantity := 10, price := 20 },
         { ticker := 0, action := "cover", quantity := 10, price := 15 }]
      ).margin_used
      = marginSum (runTrades (initPortfolio 1 100000 (1/2))
        [{ ticker := 0, action := "short", quantity := 10, price := 20 },
         { ticker := 0, action := "cover", quantity := 10, price := 15 }]) :=
  C10_margin_ledger.1 1 100000 (1/2) _

lemma executeBuy_cash (p : Portfolio) (i : ℕ) (position : Position)
    (q : ℤ) (price : ℚ) (hcash : 0 ≤ p.cash) (hprice : 0 < price) :
    0 ≤ (executeBuy p i position q price).1.cash := by
  have hkey : (pyInt (p.cash / price) : ℚ) * price ≤ p.cash :=
    (le_div_iff₀ hprice).mp (pyInt_le (div_nonneg hcash (le_of_lt hprice)))
  unfold executeBuy
  dsimp only
  split_ifs <;> dsimp only <;> linarith

lemma executeShort_cash (p : Portfolio) (i : ℕ) (position : Position)
    (q : ℤ) (price : ℚ) (hq : 0 < q) (hcash : 0 ≤ p.cash)
    (hprice : 0 < price) :
    0 ≤ (executeShort p i position q price).1.cash := by
  have hq2 : (0 : ℚ) < (q : ℚ) := by exact_mod_cast hq
  unfold executeShort
  dsimp only
  by_cases h1 : price * (q : ℚ) * p.margin_requirement ≤ p.cash
  · rw [if_pos h1]
    dsimp only
    nlinarith
  · rw [if_neg h1]
    by_cases hmr : 0 < p.margin_requirement
    · rw [if_pos hmr]
      by_cases hmq : 0 < pyInt (p.cash / (price * p.margin_requirement))
      · rw [if_pos hmq]
        dsimp only
        have hmq2 : (0 : ℚ) < (pyInt (p.cash / (price * p.margin_requirement)) : ℚ) := by
          exact_mod_cast hmq
        have hkey : (pyInt (p.cash / (price * p.margin_requirement)) : ℚ)
            * (price * p.margin_requirement) ≤ p.cash :=
          (le_div_iff₀ (mul_pos hprice hmr)).mp
            (pyInt_le (div_nonneg hcash (le_of_lt (mul_pos hprice hmr))))
        nlinarith
      · rw [if_neg hmq]
        exact hcash
    · rw [if_neg hmr]
      rw [if_neg (by norm_num)]
      exact hcash

lemma executeSell_positions (p : Portfolio) (i : ℕ) (position : Position)
    (q : ℤ) (price : ℚ) (hi : p.positions[i]? = some position)
    (hpos : ∀ pos ∈ p.positions, 0 ≤ pos.long ∧ 0 ≤ pos.short) :
    ∀ pos ∈ (executeSell p i position q price).1.positions,
      0 ≤ pos.long ∧ 0 ≤ pos.short := by
  unfold executeSell
  dsimp only
  by_cases h1 : 0 < min q position.long
  · rw [if_pos h1]
    intro pos hmem
    dsimp only at hmem
    rcases List.mem_or_eq_of_mem_set hmem with hmem2 | rfl
    · exact hpos pos hmem2
    · refine ⟨?_, ?_⟩
      · dsimp only
        omega
      · dsimp only
        exact (hpos position (mem_of_getElemOpt hi)).2
  · rw [if_neg h1]
    exact hpos

lemma executeCover_positions (p : Portfolio) (i : ℕ) (position : Position)
    (q : ℤ) (price : ℚ) (hi : p.positions[i]? = some position)
    (hpos : ∀ pos ∈ p.positions, 0 ≤ pos.long ∧ 0 ≤ pos.short) :
    ∀ pos ∈ (executeCover p i position q price).1.positions,
      0 ≤ pos.long ∧ 0 ≤ pos.short := by
  unfold executeCover
  dsimp only
  by_cases h1 : 0 < min q position.short
  · rw [if_pos h1]
    intro pos hmem
    dsimp only at hmem
    rcases List.mem_or_eq_of_mem_set hmem with hmem2 | rfl
    · exact hpos pos hmem2
    · refine ⟨?_, ?_⟩
      · dsimp only
        exact (hpos position (mem_of_getElemOpt hi)).1
      · dsimp only
        omega
  · rw [if_neg h1]
    exact hpos

/-- C4: from a portfolio with nonnegative cash, margin requirement in
[0,1] and nonnegative position quantities, at any positive price, a buy
or short trade never leaves cash negative (unaffordable quantities are
clipped to the maximum affordable), and a sell or cover never drives any
long or short quantity negative (quantities are clipped to the held
amount). -/
theorem C4_clamps (p : Portfolio) (i : ℕ) (a : String) (q : ℤ) (price : ℚ)
    (hcash : 0 ≤ p.cash) (_hmr0 : 0 ≤ p.margin_requirement)
    (_hmr1 : p.margin_requirement ≤ 1)
    (hpos : ∀ pos ∈ p.positions, 0 ≤ pos.long ∧ 0 ≤ pos.short)
    (hprice : 0 < price) :
    ((a = "buy" ∨ a = "short") →
      0 ≤ (_execute_trade p i a q price).1.cash) ∧
    ((a = "sell" ∨ a = "cover") →
      ∀ pos ∈ (_execute_trade p i a q price).1.positions,
        0 ≤ pos.long ∧ 0 ≤ pos.short) := by
  constructor
  · rintro (rfl | rfl)
    · by_cases hq : q ≤ 0
      · unfold _execute_trade
        rw [if_pos (Or.inl hq)]
        exact hcash
      · push_neg at hq
        cases hpi : p.positions[i]? with
        | none =>
          unfold _execute_trade
          rw [if_neg (not_guard hq hprice), hpi]
          exact hcash
        | some position =>
          rw [execute_trade_eq_buy p i q price position hpi hq hprice]
          exact executeBuy_cash p i position q price hcash hprice
    · by_cases hq : q ≤ 0
      · unfold _execute_trade
        rw [if_pos (Or.inl hq)]
        exact hcash
      · push_neg at hq
        cases hpi : p.positions[i]? with
        | none =>
          unfold _execute_trade
          rw [if_neg (not_guard hq hprice), hpi]
          exact hcash
        | some position =>
          rw [execute_trade_eq_short p i q price position hpi hq hprice]
          exact executeShort_cash p i position q price hq hcash hprice
  · rintro (rfl | rfl)
    · by_cases hq : q ≤ 0
      · unfold _execute_trade
        rw [if_pos (Or.inl hq)]
        exact hpos
      · push_neg at hq
        cases hpi : p.positions[i]? with
        | none =>
          unfold _execute_trade
          rw [if_neg (not_guard hq hprice), hpi]
          exact hpos
        | some position =>
          rw [execute_trade_eq_sell p i q price position hpi hq hprice]
          exact executeSell_positions p i position q price hpi hpos
    · by_cases hq : q ≤ 0
      · unfold _execute_trade
        rw [if_pos (Or.inl hq)]
        exact hpos
      · push_neg at hq
        cases hpi : p.positions[i]? with
        | none =>
          unfold _execute_trade
          rw [if_neg (not_guard hq hprice), hpi]
          exact hpos
        | some position =>
          rw [execute_trade_eq_cover p i q price position hpi hq hprice]
          exact executeCover_positions p i position q price hpi hpos

/-- C4, witness: buying 7 shares at price 30 with only 100 cash (an
unaffordable request, clipped to 3 shares) leaves cash nonnegative. -/
theorem C4_clamps_witness :
    0 ≤ (_execute_trade
        { cash := 100, margin_used := 15, margin_requirement := 1/2,
          positions := [{ long := 5, short := 3, long_cost_basis := 10,
                          short_cost_basis := 10, short_margin_used := 15 }],
          realized_gains := [{ long := 0, short := 0 }] }
        0 "buy" 7 30).1.cash := by
  refine (C4_clamps _ 0 "buy" 7 30 (by norm_num) (by norm_num) (by norm_num)
    ?_ (by norm_num)).1 (Or.inl rfl)
  intro pos hmem
  rw [List.mem_singleton] at hmem
  subst hmem
  constructor <;> norm_num

lemma runTrades_cons (p : Portfolio) (t : Trade) (ts : List Trade) :
    runTrades p (t :: ts)
      = runTrades (_execute_trade p t.ticker t.action t.quantity t.price).1
          ts := by
  unfold runTrades
  rw [List.foldl_cons]

lemma executeBuy_affordable (p : Portfolio) (i : ℕ) (position : Position)
    (q : ℤ) (price : ℚ) (haff : (q : ℚ) * price ≤ p.cash)
    (htot : 0 < position.long + q) :
    ∃ pos2 : Position,
      (executeBuy p i position q price).1
        = { p with cash := p.cash - (q : ℚ) * price,
                   positions := p.positions.set i pos2 } ∧
      pos2.long = position.long + q ∧
      pos2.long_cost_basis
        = (position.long_cost_basis * (position.long : ℚ) + (q : ℚ) * price)
            / ((position.long + q : ℤ) : ℚ) := by
  unfold executeBuy
  dsimp only
  rw [if_pos haff, if_pos htot]
  exact ⟨_, rfl, rfl, rfl⟩

lemma buy_adds_fold :
    ∀ (adds : List (ℤ × ℚ)) (p : Portfolio) (i : ℕ) (position : Position),
      p.positions[i]? = some position →
      0 ≤ position.long →
      (∀ t ∈ adds, 0 < t.1 ∧ 0 < t.2) →
      (adds.map (fun t => (t.1 : ℚ) * t.2)).sum ≤ p.cash →
      ∃ fpos : Position,
        (runTrades p (adds.map (fun t =>
            ({ ticker := i, action := "buy", quantity := t.1,
               price := t.2 } : Trade)))).positions[i]? = some fpos ∧
        fpos.long = position.long + (adds.map (fun t => t.1)).sum ∧
        fpos.long_cost_basis
            * ((position.long : ℚ) + (((adds.map (fun t => t.1)).sum : ℤ) : ℚ))
          = position.long_cost_basis * (position.long : ℚ)
            + (adds.map (fun t => (t.1 : ℚ) * t.2)).sum := by
  intro adds
  induction adds with
  | nil =>
    intro p i position hi hlong hts hsum
    refine ⟨position, by simpa using hi, by simp, by simp⟩
  | cons t ts ih =>
    intro p i position hi hlong hts hsum
    obtain ⟨hq1, hp1⟩ := hts t (List.mem_cons_self t ts)
    have hts2 : ∀ u ∈ ts, 0 < u.1 ∧ 0 < u.2 :=
      fun u hu => hts u (List.mem_cons_of_mem t hu)
    have hrest_nonneg : 0 ≤ (ts.map (fun u => (u.1 : ℚ) * u.2)).sum := by
      apply List.sum_nonneg
      intro x hx
      obtain ⟨u, hu, rfl⟩ := List.mem_map.mp hx
      have hu2 := hts2 u hu
      have hcast : (0 : ℚ) < (u.1 : ℚ) := by exact_mod_cast hu2.1
      exact le_of_lt (mul_pos hcast hu2.2)
    rw [List.map_cons, List.sum_cons] at hsum
    have haff : (t.1 : ℚ) * t.2 ≤ p.cash := by linarith
    have htot : 0 < position.long + t.1 := by omega
    have hilen : i < p.positions.length := lt_length_of_getElemOpt hi
    rw [List.map_cons, runTrades_cons]
    dsimp only
    rw [execute_trade_eq_buy p i t.1 t.2 position hi hq1 hp1]
    obtain ⟨pos2, hP, hlong2, hbasis2⟩ :=
      executeBuy_affordable p i position t.1 t.2 haff htot
    rw [hP]
    have hi2 : ((p.positions.set i pos2)[i]?) = some pos2 :=
      List.getElem?_set_eq_of_lt _ hilen
    obtain ⟨fpos, hf, hflong, hfbasis⟩ :=
      ih { p with cash := p.cash - (t.1 : ℚ) * t.2,
                  positions := p.positions.set i pos2 } i pos2
        hi2 (by rw [hlong2]; omega) hts2 (by dsimp only; linarith)
    refine ⟨fpos, hf, ?_, ?_⟩
    · rw [List.map_cons, List.sum_cons, hflong, hlong2]
      omega
    · rw [List.map_cons, List.sum_cons, List.map_cons, List.sum_cons]
      have hne : ((position.long + t.1 : ℤ) : ℚ) ≠ 0 := by
        exact_mod_cast ne_of_gt htot
      rw [hlong2, hbasis2] at hfbasis
      rw [div_mul_cancel₀ _ hne] at hfbasis
      push_cast at hfbasis ⊢
      linear_combination hfbasis

lemma executeShort_affordable (p : Portfolio) (i : ℕ) (position : Position)
    (q : ℤ) (price : ℚ)
    (haff : price * (q : ℚ) * p.margin_requirement ≤ p.cash)
    (htot : 0 < position.short + q) :
    ∃ pos2 : Position,
      (executeShort p i position q price).1
        = { p with
              cash := p.cash + price * (q : ℚ)
                - price * (q : ℚ) * p.margin_requirement,
              margin_used := p.margin_used
                + price * (q : ℚ) * p.margin_requirement,
              positions := p.positions.set i pos2 } ∧
      pos2.short = position.short + q ∧
      pos2.short_cost_basis
        = (position.short_cost_basis * (position.short : ℚ)
            + price * (q : ℚ)) / ((position.short + q : ℤ) : ℚ) := by
  unfold executeShort
  dsimp only
  rw [if_pos haff, if_pos htot]
  exact ⟨_, rfl, rfl, rfl⟩

lemma short_adds_fold :
    ∀ (adds : List (ℤ × ℚ)) (p : Portfolio) (i : ℕ) (position : Position),
      p.positions[i]? = some position →
      0 ≤ position.short →
      (∀ t ∈ adds, 0 < t.1 ∧ 0 < t.2) →
      0 ≤ p.margin_requirement → p.margin_requirement ≤ 1 →
      (∀ t ∈ adds, t.2 * (t.1 : ℚ) * p.margin_requirement ≤ p.cash) →
      ∃ fpos : Position,
        (runTrades p (adds.map (fun t =>
            ({ ticker := i, action := "short", quantity := t.1,
               price := t.2 } : Trade)))).positions[i]? = some fpos ∧
        fpos.short = position.short + (adds.map (fun t => t.1)).sum ∧
        fpos.short_cost_basis
            * ((position.short : ℚ) + (((adds.map (fun t => t.1)).sum : ℤ) : ℚ))
          = position.short_cost_basis * (position.short : ℚ)
            + (adds.map (fun t => (t.1 : ℚ) * t.2)).sum := by
  intro adds
  induction adds with
  | nil =>
    intro p i position hi hshort hts hmr0 hmr1 hm
    refine ⟨position, by simpa using hi, by simp, by simp⟩
  | cons t ts ih =>
    intro p i position hi hshort hts hmr0 hmr1 hm
    obtain ⟨hq1, hp1⟩ := hts t (List.mem_cons_self t ts)
    have hq1c : (0 : ℚ) < (t.1 : ℚ) := by exact_mod_cast hq1
    have hts2 : ∀ u ∈ ts, 0 < u.1 ∧ 0 < u.2 :=
      fun u hu => hts u (List.mem_cons_of_mem t hu)
    have haff : t.2 * (t.1 : ℚ) * p.margin_requirement ≤ p.cash :=
      hm t (List.mem_cons_self t ts)
    have htot : 0 < position.short + t.1 := by omega
    have hilen : i < p.positions.length := lt_length_of_getElemOpt hi
    have hc1 : 0 ≤ t.2 * (t.1 : ℚ) := le_of_lt (mul_pos hp1 hq1c)
    rw [List.map_cons, runTrades_cons]
    dsimp only
    rw [execute_trade_eq_short p i t.1 t.2 position hi hq1 hp1]
    obtain ⟨pos2, hP, hshort2, hbasis2⟩ :=
      executeShort_affordable p i position t.1 t.2 haff htot
    rw [hP]
    have hi2 : ((p.positions.set i pos2)[i]?) = some pos2 :=
      List.getElem?_set_eq_of_lt _ hilen
    have haffrest : ∀ u ∈ ts,
        u.2 * (u.1 : ℚ) * p.margin_requirement
          ≤ p.cash + t.2 * (t.1 : ℚ)
              - t.2 * (t.1 : ℚ) * p.margin_requirement := by
      intro u hu
      have hau := hm u (List.mem_cons_of_mem t hu)
      have hmono : t.2 * (t.1 : ℚ) * p.margin_requirement ≤ t.2 * (t.1 : ℚ) :=
        mul_le_of_le_one_right hc1 hmr1
      linarith
    obtain ⟨fpos, hf, hfshort, hfbasis⟩ :=
      ih { p with
            cash := p.cash + t.2 * (t.1 : ℚ)
              - t.2 * (t.1 : ℚ) * p.margin_requirement,
            margin_used := p.margin_used
              + t.2 * (t.1 : ℚ) * p.margin_requirement,
            positions := p.positions.set i pos2 } i pos2
        hi2 (by rw [hshort2]; omega) hts2 hmr0 hmr1 haffrest
    refine ⟨fpos, hf, ?_, ?_⟩
    · rw [List.map_cons, List.sum_cons, hfshort, hshort2]
      omega
    · rw [List.map_cons, List.sum_cons, List.map_cons, List.sum_cons]
      have hne : ((position.short + t.1 : ℤ) : ℚ) ≠ 0 := by
        exact_mod_cast ne_of_gt htot
      rw [hshort2, hbasis2] at hfbasis
      rw [div_mul_cancel₀ _ hne] at hfbasis
      push_cast at hfbasis ⊢
      linear_combination hfbasis

lemma executeBuy_step_law (p : Portfolio) (i : ℕ) (q : ℤ) (price : ℚ)
    (position : Position) (hi : p.positions[i]? = some position)
    (hlong : 0 ≤ position.long)
    (hexec : 0 < (executeBuy p i position q price).2) :
    ((executeBuy p i position q price).1.positions[i]?.getD
        Position.init).long
      = position.long + (executeBuy p i position q price).2 ∧
    ((executeBuy p i position q price).1.positions[i]?.getD
        Position.init).long_cost_basis
        * ((position.long : ℚ) + ((executeBuy p i position q price).2 : ℚ))
      = position.long_cost_basis * (position.long : ℚ)
        + ((executeBuy p i position q price).2 : ℚ) * price := by
  have hilen : i < p.positions.length := lt_length_of_getElemOpt hi
  unfold executeBuy at hexec ⊢
  dsimp only at hexec ⊢
  by_cases haff : (q : ℚ) * price ≤ p.cash
  · rw [if_pos haff] at hexec ⊢
    dsimp only at hexec ⊢
    have htot : 0 < position.long + q := by omega
    rw [if_pos htot]
    rw [List.getElem?_set_eq_of_lt _ hilen]
    dsimp only [Option.getD_some]
    refine ⟨rfl, ?_⟩
    have hne : ((position.long + q : ℤ) : ℚ) ≠ 0 := by
      exact_mod_cast ne_of_gt htot
    have hcast : (position.long : ℚ) + (q : ℚ)
        = ((position.long + q : ℤ) : ℚ) := by push_cast; ring
    rw [hcast, div_mul_cancel₀ _ hne]
  · rw [if_neg haff] at hexec ⊢
    by_cases hmq : 0 < pyInt (p.cash / price)
    · rw [if_pos hmq] at hexec ⊢
      dsimp only at hexec ⊢
      have htot : 0 < position.long + pyInt (p.cash / price) := by omega
      rw [if_pos htot]
      rw [List.getElem?_set_eq_of_lt _ hilen]
      dsimp only [Option.getD_some]
      refine ⟨rfl, ?_⟩
      have hne : ((position.long + pyInt (p.cash / price) : ℤ) : ℚ) ≠ 0 := by
        exact_mod_cast ne_of_gt htot
      have hcast : (position.long : ℚ) + (pyInt (p.cash / price) : ℚ)
          = ((position.long + pyInt (p.cash / price) : ℤ) : ℚ) := by
        push_cast
        ring
      rw [hcast, div_mul_cancel₀ _ hne]
    · rw [if_neg hmq] at hexec
      exact absurd hexec (by norm_num)

lemma executeShort_step_law (p : Portfolio) (i : ℕ) (q : ℤ) (price : ℚ)
    (position : Position) (hi : p.positions[i]? = some position)
    (hshort : 0 ≤ position.short)
    (hexec : 0 < (executeShort p i position q price).2) :
    ((executeShort p i position q price).1.positions[i]?.getD
        Position.init).short
      = position.short + (executeShort p i position q price).2 ∧
    ((executeShort p i position q price).1.positions[i]?.getD
        Position.init).short_cost_basis
        * ((position.short : ℚ) + ((executeShort p i position q price).2 : ℚ))
      = position.short_cost_basis * (position.short : ℚ)
        + price * ((executeShort p i position q price).2 : ℚ) := by
  have hilen : i < p.positions.length := lt_length_of_getElemOpt hi
  unfold executeShort at hexec ⊢
  dsimp only at hexec ⊢
  by_cases haff : price * (q : ℚ) * p.margin_requirement ≤ p.cash
  · rw [if_pos haff] at hexec ⊢
    dsimp only at hexec ⊢
    have htot : 0 < position.short + q := by omega
    rw [if_pos htot]
    rw [List.getElem?_set_eq_of_lt _ hilen]
    dsimp only [Option.getD_some]
    refine ⟨rfl, ?_⟩
    have hne : ((position.short + q : ℤ) : ℚ) ≠ 0 := by
      exact_mod_cast ne_of_gt htot
    have hcast : (position.short : ℚ) + (q : ℚ)
        = ((position.short + q : ℤ) : ℚ) := by push_cast; ring
    rw [hcast, div_mul_cancel₀ _ hne]
  · rw [if_neg haff] at hexec ⊢
    by_cases hmr : 0 < p.margin_requirement
    · rw [if_pos hmr] at hexec ⊢
      by_cases hmq : 0 < pyInt (p.cash / (price * p.margin_requirement))
      · rw [if_pos hmq] at hexec ⊢
        dsimp only at hexec ⊢
        have htot : 0 < position.short
            + pyInt (p.cash / (price * p.margin_requirement)) := by omega
        rw [if_pos htot]
        rw [List.getElem?_set_eq_of_lt _ hilen]
        dsimp only [Option.getD_some]
        refine ⟨rfl, ?_⟩
        have hne : ((position.short
            + pyInt (p.cash / (price * p.margin_requirement)) : ℤ) : ℚ)
            ≠ 0 := by
          exact_mod_cast ne_of_gt htot
        have hcast : (position.short : ℚ)
            + (pyInt (p.cash / (price * p.margin_requirement)) : ℚ)
            = ((position.short
                + pyInt (p.cash / (price * p.margin_requirement)) : ℤ) : ℚ) := by
          push_cast
          ring
        rw [hcast, div_mul_cancel₀ _ hne]
      · rw [if_neg hmq] at hexec
        exact absurd hexec (by norm_num)
    · rw [if_neg hmr] at hexec
      rw [if_neg (by norm_num)] at hexec
      exact absurd hexec (by norm_num)

lemma executeSell_basis_facts (p : Portfolio) (i : ℕ) (position : Position)
    (q : ℤ) (price : ℚ) (hi : p.positions[i]? = some position) :
    ((executeSell p i position q price).2 = 0 →
        (executeSell p i position q price).1 = p) ∧
    (0 < (executeSell p i position q price).2 →
      ((executeSell p i position q price).1.positions[i]?.getD
          Position.init).long = position.long - min q position.long ∧
      ((executeSell p i position q price).1.positions[i]?.getD
          Position.init).long_cost_basis
        = (if position.long - min q position.long = 0 then 0
            else position.long_cost_basis)) := by
  unfold executeSell
  dsimp only
  by_cases h1 : 0 < min q position.long
  · rw [if_pos h1]
    constructor
    · intro h0
      exact absurd h0 (by omega)
    · intro _
      rw [List.getElem?_set_eq_of_lt _ (lt_length_of_getElemOpt hi)]
      dsimp only [Option.getD_some]
      exact ⟨rfl, rfl⟩
  · rw [if_neg h1]
    exact ⟨fun _ => rfl, fun h0 => absurd h0 (by norm_num)⟩

lemma executeCover_basis_facts (p : Portfolio) (i : ℕ) (position : Position)
    (q : ℤ) (price : ℚ) (hi : p.positions[i]? = some position) :
    ((executeCover p i position q price).2 = 0 →
        (executeCover p i position q price).1 = p) ∧
    (0 < (executeCover p i position q price).2 →
      ((executeCover p i position q price).1.positions[i]?.getD
          Position.init).short = position.short - min q position.short ∧
      ((executeCover p i position q price).1.positions[i]?.getD
          Position.init).short_cost_basis
        = (if position.short - min q position.short = 0 then 0
            else position.short_cost_basis)) := by
  unfold executeCover
  dsimp only
  by_cases h1 : 0 < min q position.short
  · rw [if_pos h1]
    constructor
    · intro h0
      exact absurd h0 (by omega)
    · intro _
      rw [List.getElem?_set_eq_of_lt _ (lt_length_of_getElemOpt hi)]
      dsimp only [Option.getD_some]
      exact ⟨rfl, rfl⟩
  · rw [if_neg h1]
    exact ⟨fun _ => rfl, fun h0 => absurd h0 (by norm_num)⟩

/-- C5: weighted-average cost basis.  (a) A sequence of fully executed
buys starting from an empty long position leaves
`long_cost_basis = Σ(q·price)/Σq`; (b) the same for shorts and
`short_cost_basis`; (c),(d) a single buy/short - clipped or not -
combines the executed quantity into the running weighted average; (e),(f)
a sell/cover executing nothing changes nothing, and one executing a
positive quantity leaves the respective cost basis unchanged unless the
position is fully closed, in which case the basis resets to 0. -/
theorem C5_cost_basis :
    (∀ (adds : List (ℤ × ℚ)) (p : Portfolio) (i : ℕ) (position : Position),
      p.positions[i]? = some position → position.long = 0 →
      position.long_cost_basis = 0 →
      (∀ t ∈ adds, 0 < t.1 ∧ 0 < t.2) →
      (adds.map (fun t => (t.1 : ℚ) * t.2)).sum ≤ p.cash →
      ((runTrades p (adds.map (fun t =>
          ({ ticker := i, action := "buy", quantity := t.1,
             price := t.2 } : Trade)))).positions[i]?.getD
          Position.init).long_cost_basis
        = (adds.map (fun t => (t.1 : ℚ) * t.2)).sum
            / (((adds.map (fun t => t.1)).sum : ℤ) : ℚ)) ∧
    (∀ (adds : List (ℤ × ℚ)) (p : Portfolio) (i : ℕ) (position : Position),
      p.positions[i]? = some position → position.short = 0 →
      position.short_cost_basis = 0 →
      (∀ t ∈ adds, 0 < t.1 ∧ 0 < t.2) →
      0 ≤ p.margin_requirement → p.margin_requirement ≤ 1 →
      (∀ t ∈ adds, t.2 * (t.1 : ℚ) * p.margin_requirement ≤ p.cash) →
      ((runTrades p (adds.map (fun t =>
          ({ ticker := i, action := "short", quantity := t.1,
             price := t.2 } : Trade)))).positions[i]?.getD
          Position.init).short_cost_basis
        = (adds.map (fun t => (t.1 : ℚ) * t.2)).sum
            / (((adds.map (fun t => t.1)).sum : ℤ) : ℚ)) ∧
    (∀ (p : Portfolio) (i : ℕ) (q : ℤ) (price : ℚ) (position : Position),
      p.positions[i]? = some position → 0 ≤ position.long →
      0 < (_execute_trade p i "buy" q price).2 →
      ((_execute_trade p i "buy" q price).1.positions[i]?.getD
          Position.init).long_cost_basis
          * ((position.long : ℚ)
              + ((_execute_trade p i "buy" q price).2 : ℚ))
        = position.long_cost_basis * (position.long : ℚ)
          + ((_execute_trade p i "buy" q price).2 : ℚ) * price) ∧
    (∀ (p : Portfolio) (i : ℕ) (q : ℤ) (price : ℚ) (position : Position),
      p.positions[i]? = some position → 0 ≤ position.short →
      0 < (_execute_trade p i "short" q price).2 →
      ((_execute_trade p i "short" q price).1.positions[i]?.getD
          Position.init).short_cost_basis
          * ((position.short : ℚ)
              + ((_execute_trade p i "short" q price).2 : ℚ))
        = position.short_cost_basis * (position.short : ℚ)
          + price * ((_execute_trade p i "short" q price).2 : ℚ)) ∧
    (∀ (p : Portfolio) (i : ℕ) (q : ℤ) (price : ℚ) (position : Position),
      p.positions[i]? = some position →
      ((_execute_trade p i "sell" q price).2 = 0 →
        (_execute_trade p i "sell" q price).1 = p) ∧
      (0 < (_execute_trade p i "sell" q price).2 →
        ((_execute_trade p i "sell" q price).1.positions[i]?.getD
            Position.init).long = position.long - min q position.long ∧
        ((_execute_trade p i "sell" q price).1.positions[i]?.getD
            Position.init).long_cost_basis
          = (if position.long - min q position.long = 0 then 0
              else position.long_cost_basis))) ∧
    (∀ (p : Portfolio) (i : ℕ) (q : ℤ) (price : ℚ) (position : Position),
      p.positions[i]? = some position →
      ((_execute_trade p i "cover" q price).2 = 0 →
        (_execute_trade p i "cover" q price).1 = p) ∧
      (0 < (_execute_trade p i "cover" q price).2 →
        ((_execute_trade p i "cover" q price).1.positions[i]?.getD
            Position.init).short = position.short - min q position.short ∧
        ((_execute_trade p i "cover" q price).1.positions[i]?.getD
            Position.init).short_cost_basis
          = (if position.short - min q position.short = 0 then 0
              else position.short_cost_basis))) := by
  refine ⟨?_, ?_, ?_, ?_, ?_, ?_⟩
  · intro adds p i position hi h0 hb0 hts hsum
    cases adds with
    | nil =>
      unfold runTrades
      simp only [List.map_nil, List.foldl_nil, List.sum_nil]
      rw [hi]
      dsimp only [Option.getD_some]
      rw [hb0]
      simp
    | cons t ts =>
      have hpos_sum : 0 < ((t :: ts).map (fun u => u.1)).sum := by
        apply List.sum_pos
        · intro x hx
          obtain ⟨u, hu, rfl⟩ := List.mem_map.mp hx
          exact (hts u hu).1
        · simp
      obtain ⟨fpos, hf, hflong, hfbasis⟩ :=
        buy_adds_fold (t :: ts) p i position hi (by omega) hts hsum
      rw [hf]
      dsimp only [Option.getD_some]
      rw [h0, hb0] at hfbasis
      have hne : ((((t :: ts).map (fun u => u.1)).sum : ℤ) : ℚ) ≠ 0 := by
        exact_mod_cast ne_of_gt hpos_sum
      rw [eq_div_iff hne]
      push_cast at hfbasis ⊢
      linear_combination hfbasis
  · intro adds p i position hi h0 hb0 hts hmr0 hmr1 hm
    cases adds with
    | nil =>
      unfold runTrades
      simp only [List.map_nil, List.foldl_nil, List.sum_nil]
      rw [hi]
      dsimp only [Option.getD_some]
      rw [hb0]
      simp
    | cons t ts =>
      have hpos_sum : 0 < ((t :: ts).map (fun u => u.1)).sum := by
        apply List.sum_pos
        · intro x hx
          obtain ⟨u, hu, rfl⟩ := List.mem_map.mp hx
          exact (hts u hu).1
        · simp
      obtain ⟨fpos, hf, hfshort, hfbasis⟩ :=
        short_adds_fold (t :: ts) p i position hi (by omega) hts hmr0 hmr1 hm
      rw [hf]
      dsimp only [Option.getD_some]
      rw [h0, hb0] at hfbasis
      have hne : ((((t :: ts).map (fun u => u.1)).sum : ℤ) : ℚ) ≠ 0 := by
        exact_mod_cast ne_of_gt hpos_sum
      rw [eq_div_iff hne]
      push_cast at hfbasis ⊢
      linear_combination hfbasis
  · intro p i q price position hi hlong hexec
    by_cases hguard : q ≤ 0 ∨ price ≤ 0
    · exfalso
      unfold _execute_trade at hexec
      rw [if_pos hguard] at hexec
      exact absurd hexec (by norm_num)
    · push_neg at hguard
      rw [execute_trade_eq_buy p i q price position hi hguard.1 hguard.2]
        at hexec ⊢
      exact (executeBuy_step_law p i q price position hi hlong hexec).2
  · intro p i q price position hi hshort hexec
    by_cases hguard : q ≤ 0 ∨ price ≤ 0
    · exfalso
      unfold _execute_trade at hexec
      rw [if_pos hguard] at hexec
      exact absurd hexec (by norm_num)
    · push_neg at hguard
      rw [execute_trade_eq_short p i q price position hi hguard.1 hguard.2]
        at hexec ⊢
      exact (executeShort_step_law p i q price position hi hshort hexec).2
  · intro p i q price position hi
    by_cases hguard : q ≤ 0 ∨ price ≤ 0
    · unfold _execute_trade
      rw [if_pos hguard]
      exact ⟨fun _ => rfl, fun h0 => absurd h0 (by norm_num)⟩
    · push_neg at hguard
      rw [execute_trade_eq_sell p i q price position hi hguard.1 hguard.2]
      exact executeSell_basis_facts p i position q price hi
  · intro p i q price position hi
    by_cases hguard : q ≤ 0 ∨ price ≤ 0
    · unfold _execute_trade
      rw [if_pos hguard]
      exact ⟨fun _ => rfl, fun h0 => absurd h0 (by norm_num)⟩
    · push_neg at hguard
      rw [execute_trade_eq_cover p i q price position hi hguard.1 hguard.2]
      exact executeCover_basis_facts p i position q price hi

/-- C5, witness: buying 2 shares at 10 and then 3 shares at 20 from an
empty position with 100 cash gives cost basis (2·10 + 3·20)/5 = 16. -/
theorem C5_cost_basis_witness :
    ((runTrades
        { cash := 100, margin_used := 0, margin_requirement := 0,
          positions := [Position.init],
          realized_gains := [{ long := 0, short := 0 }] }
        ([((2 : ℤ), (10 : ℚ)), (3, 20)].map (fun t =>
            ({ ticker := 0, action := "buy", quantity := t.1,
               price := t.2 } : Trade)))).positions[0]?.getD
        Position.init).long_cost_basis = 16 := by
  have h := C5_cost_basis.1 [((2 : ℤ), (10 : ℚ)), (3, 20)]
    { cash := 100, margin_used := 0, margin_requirement := 0,
      positions := [Position.init],
      realized_gains := [{ long := 0, short := 0 }] } 0 Position.init
    rfl rfl rfl ?_ ?_
  · rw [h]
    norm_num
  · intro t ht
    rcases List.mem_cons.mp ht with rfl | ht2
    · exact ⟨by norm_num, by norm_num⟩
    · rcases List.mem_singleton.mp ht2 with rfl
      exact ⟨by norm_num, by norm_num⟩
  · simp only [List.map_cons, List.map_nil, List.sum_cons, List.sum_nil]
    norm_num

end NebulaX
